import Mathlib

/-!
Verification development for the OpenAirframes ADS-B aggregation pipeline.

The definitions below are a shallow embedding of the Python source:

* `src/adsb/compress_adsb_to_aircraft_data.py`
  (`compress_df_polars`, `compress_multi_icao_df`, `deduplicate_by_signature`)
* `src/adsb/combine_chunks_to_csv.py`
  (`download_and_merge_base_release`, final sort in `main`)
* `src/adsb/process_icao_chunk.py` (`deterministic_hash`, `get_chunk_icaos`)
* `src/adsb/download_adsb_data_to_parquet.py` (`process_file`)

Modelling conventions: polars DataFrames over the identity columns become
lists of `Row`; identity-field cells are `String` with the empty string as
the empty sentinel (the pipeline casts the identity columns to Utf8 and
fills nulls with the empty string before the per-entity aggregation runs,
so inside the aggregation no nulls remain).  Polars `sort` is modelled as a
stable sort and `group_by` / `unique` / `partition_by` as order-preserving,
first-occurrence operations (the deterministic reading: the source relies
on polars defaults which preserve which row is kept, and the surrounding
code passes `maintain_order=True` where the order is consumed).
Timestamps become naturals.  JSON decoding of raw trace documents is
abstracted into a typed document structure whose `Option` fields model a
missing or null key.
-/

namespace OpenAirframes

/-- The identity columns, `COLUMNS` in compress_adsb_to_aircraft_data.py. -/
inductive Col : Type
  | dbFlags
  | ownOp
  | year
  | desc
  | aircraft_category
  | r
  | t
deriving DecidableEq, Repr

/-- `COLUMNS = ['dbFlags', 'ownOp', 'year', 'desc', 'aircraft_category', 'r', 't']`. -/
def COLUMNS : List Col :=
  [Col.dbFlags, Col.ownOp, Col.year, Col.desc, Col.aircraft_category, Col.r, Col.t]

/-- One identity-field assignment (the cells of the identity columns of one
row, after the Utf8 cast and null fill). -/
structure Fields where
  dbFlags : String
  ownOp : String
  year : String
  desc : String
  aircraft_category : String
  r : String
  t : String
deriving DecidableEq, Repr

/-- Cell lookup by column. -/
def Fields.get (f : Fields) : Col → String
  | Col.dbFlags => f.dbFlags
  | Col.ownOp => f.ownOp
  | Col.year => f.year
  | Col.desc => f.desc
  | Col.aircraft_category => f.aircraft_category
  | Col.r => f.r
  | Col.t => f.t

/-- One row of an aggregation-stage DataFrame: timestamp, entity id and
identity fields (the kinematic columns are dropped before aggregation). -/
structure Row where
  time : Nat
  icao : String
  fields : Fields
deriving DecidableEq, Repr

instance : Inhabited Fields := ⟨⟨"", "", "", "", "", "", ""⟩⟩

instance : Inhabited Row := ⟨⟨0, "", default⟩⟩

/-- The signature string of a row: `pl.concat_str([... for c in COLUMNS],
separator="|")` over the identity columns. -/
def sigOf (f : Fields) : String :=
  String.intercalate "|" (COLUMNS.map f.get)

/-- Signature occurrence count over an input DataFrame:
`df.group_by("_signature").len()` read off for one signature. -/
def sigCount (rows : List Row) (s : String) : Nat :=
  (rows.filter (fun r => sigOf r.fields = s)).length

/-- Keep the first occurrence of each key, given the set of keys already
seen.  Models a polars `group_by(key).first()` / `unique(subset=key,
keep="first")` with order-preserving (first-occurrence) semantics. -/
def dedupFirstBy {α K : Type} [DecidableEq K] (key : α → K) :
    List K → List α → List α
  | _, [] => []
  | seen, a :: l =>
    if key a ∈ seen then dedupFirstBy key seen l
    else a :: dedupFirstBy key (key a :: seen) l

/-- The representative rows of one entity group: one row per distinct
signature, first occurrence kept (`df.group_by("_signature").first()`). -/
def repsOf (rows : List Row) : List Row :=
  dedupFirstBy (fun r => sigOf r.fields) [] rows

/-- The non-empty identity columns of a row:
`{col: row[col] for col in COLUMNS if row[col] != '' and row[col] is not None}`
(the null test is vacuous here because the caller has filled nulls). -/
def nonEmptyCols (f : Fields) : List Col :=
  COLUMNS.filter (fun c => f.get c ≠ "")

/-- `a` is an informational subset of `b` with strictly fewer non-empty
fields: the inner test of `is_subset_of_any`
(`all(row_dict.get(k) == other_dict.get(k) for k in row_dict)` plus
`other_count > row_count`). -/
def domBool (a b : Fields) : Bool :=
  COLUMNS.all (fun c => a.get c = "" || b.get c = a.get c) &&
    (nonEmptyCols a).length < (nonEmptyCols b).length

/-- `is_subset_of_any(idx)`: some representative at a different index
dominates the row at `idx`. -/
def isSubsetOfAny (reps : List Row) (idx : Nat) (a : Row) : Bool :=
  reps.enum.any (fun p => p.1 ≠ idx && domBool a.fields p.2.fields)

/-- `keep_indices`: indices of representatives not dominated by any other. -/
def keepIdx (reps : List Row) : List Nat :=
  (reps.enum.filter (fun p => ! isSubsetOfAny reps p.1 p.2)).map Prod.fst

/-- `remaining_signatures`: the signatures of the representatives at the
kept indices, with the keep-first fallback (`keep_indices = [0]`) when
the filter discarded every index. -/
def remainingSigs (reps : List Row) : List String :=
  (if keepIdx reps = [] then [0] else keepIdx reps).filterMap
    (fun i => (reps[i]?).map (fun r => sigOf r.fields))

/-- The representatives surviving the domination filter:
`df.filter(pl.col("_signature").is_in(remaining_signatures))`. -/
def keptReps (reps : List Row) : List Row :=
  reps.filter (fun r => sigOf r.fields ∈ remainingSigs reps)

/-- Shallow embedding of `compress_df_polars(df, icao)`: compress the rows
of one entity group to its most informative row.  Returns `none` exactly
when the group is empty (in Python an empty group would fault; callers
only pass non-empty groups). -/
def compress_df (rows : List Row) (icao : String) : Option Row :=
  let reps := repsOf rows
  if reps.length = 1 then
    reps.head?.map (fun r => { r with icao := icao })
  else
    let kept := keptReps reps
    let chosen :=
      if 1 < kept.length then
        let maxC := (kept.map (fun r => sigCount rows (sigOf r.fields))).foldl max 0
        (kept.filter (fun r => sigCount rows (sigOf r.fields) = maxC)).head?
      else kept.head?
    chosen.map (fun r => { r with icao := icao })

/-- Lexicographic comparison of character lists (the string order polars
sorts by). -/
def charListLt : List Char → List Char → Bool
  | [], [] => false
  | [], _ :: _ => true
  | _ :: _, [] => false
  | a :: as, b :: bs => if a < b then true else if b < a then false else charListLt as bs

/-- Strict lexicographic order on strings. -/
def strLt (a b : String) : Bool := charListLt a.data b.data

/-- Strict lexicographic key order (icao, time) for `df.sort(['icao', 'time'])`. -/
def rowLt (a b : Row) : Bool :=
  strLt a.icao b.icao || (a.icao = b.icao && a.time < b.time)

/-- Stable insertion: place `a` after every element strictly below it. -/
def insertBy (lt : Row → Row → Bool) (a : Row) : List Row → List Row
  | [] => [a]
  | b :: l => if lt b a then b :: insertBy lt a l else a :: b :: l

/-- Stable insertion sort; models a polars sort that keeps equal-key rows
in input order. -/
def sortBy (lt : Row → Row → Bool) : List Row → List Row
  | [] => []
  | a :: l => insertBy lt a (sortBy lt l)

/-- `df.sort(['icao', 'time'])`. -/
def sortRows (rows : List Row) : List Row := sortBy rowLt rows

/-- Strict order on time alone, for `df.sort("time")`. -/
def timeLt (a b : Row) : Bool := a.time < b.time

/-- `df.sort("time")`. -/
def sortByTime (rows : List Row) : List Row := sortBy timeLt rows

/-- First-occurrence list of the distinct values of a string list; models
the group-key order of `partition_by('icao', as_dict=True,
maintain_order=True)`. -/
def firstOccur (l : List String) : List String :=
  dedupFirstBy (fun s => s) [] l

/-- The rows of one partition group. -/
def groupRows (rows : List Row) (i : String) : List Row :=
  rows.filter (fun r => r.icao = i)

/-- The table `compress_multi_icao_df` builds before partitioning by icao:
sorted by (icao, time), with exact duplicates on `['icao'] + COLUMNS`
dropped keeping the first occurrence (`df.unique(...)`, order-preserving
reading). -/
def prepRows (rows : List Row) : List Row :=
  dedupFirstBy (fun r => (r.icao, r.fields)) [] (sortRows rows)

/-- The group-key list of `partition_by('icao', as_dict=True,
maintain_order=True)`: the distinct icaos in first-occurrence order. -/
def keysOf (rows : List Row) : List String :=
  firstOccur ((prepRows rows).map Row.icao)

/-- Shallow embedding of `compress_multi_icao_df(df)`: sort by (icao, time),
fill nulls (a no-op here, see the header), drop exact duplicates on
`['icao'] + COLUMNS` keeping the first, then compress each icao group and
concatenate the per-group results in group-key order. -/
def compress_multi (rows : List Row) : List Row :=
  if rows = [] then []
  else
    (keysOf rows).flatMap
      (fun i => (compress_df (groupRows (prepRows rows) i) i).toList)

/-- Shallow embedding of `deduplicate_by_signature(df)`: sort by time,
keep the first row of each (icao, signature) group, sort by time again.
(The signature here is built with `fill_null("")`, a no-op in this
null-free model.) -/
def deduplicate_by_signature (rows : List Row) : List Row :=
  sortByTime (dedupFirstBy (fun r => (r.icao, sigOf r.fields)) [] (sortByTime rows))

/-- `df.unique(subset=["icao"], keep="last")`: keep a row exactly when no
later row carries the same entity id. -/
def uniqueLastByIcao : List Row → List Row
  | [] => []
  | r :: l =>
    if l.any (fun s => s.icao = r.icao) then uniqueLastByIcao l
    else r :: uniqueLastByIcao l

/-- The deduplication core of `download_and_merge_base_release`:
`pl.concat([base_df, compressed_df]).unique(subset=["icao"], keep="last")`
(after the two schemas have been aligned). -/
def merge_base (base new : List Row) : List Row :=
  uniqueLastByIcao (base ++ new)

/-- A DataFrame with an explicit column list; cell values are
`Option String` so that a polars null is `none`. -/
structure Frame where
  cols : List String
  rows : List (List (Option String))
deriving DecidableEq, Repr

/-- `df.with_columns(pl.lit(None).alias(c))` for a column `c` the frame
does not yet have: append the column, null-valued in every row. -/
def addNullColumn (f : Frame) (c : String) : Frame :=
  ⟨f.cols ++ [c], f.rows.map (fun row => row ++ [none])⟩

/-- The schema-alignment step of `download_and_merge_base_release`:
each side gains the columns only the other side has, filled with
`pl.lit(None)`. -/
def reconcileColumns (base new : Frame) : Frame × Frame :=
  ((new.cols.filter (fun c => c ∉ base.cols)).foldl addNullColumn base,
   (base.cols.filter (fun c => c ∉ new.cols)).foldl addNullColumn new)

/-- `deterministic_hash(s)` from process_icao_chunk.py: sum of the code
points of the characters of `s`. -/
def deterministic_hash (s : String) : Nat :=
  (s.data.map Char.toNat).sum

/-- `get_chunk_icaos(icaos, chunk_id, total_chunks)`. -/
def get_chunk_icaos (icaos : List String) (chunk_id total_chunks : Nat) :
    List String :=
  icaos.filter (fun icao => deterministic_hash icao % total_chunks = chunk_id)

/-- A decoded JSON scalar inside a trace sample or aircraft object
(numbers are modelled as integers; the claims settled here do not depend
on fractional values). -/
inductive Lit : Type
  | null
  | str (s : String)
  | int (n : Int)
  | listS (xs : List String)
deriving DecidableEq, Repr

/-- The altitude slot of a sample: `"ground"`, another string, a number,
or JSON null (the Python float branch truncates to int, folded into the
`int` constructor). -/
inductive Alt : Type
  | str (s : String)
  | int (n : Int)
  | null
deriving DecidableEq, Repr

/-- One sample tuple of the `trace` array (positions 0 to 13). -/
structure Sample where
  time_offset : Int
  lat : Lit
  lon : Lit
  altitude : Alt
  ground_speed : Lit
  track_degrees : Lit
  flags : Lit
  vertical_rate : Lit
  aircraft : Option (List (String × Lit))
  source : Lit
  geometric_altitude : Lit
  geometric_vertical_rate : Lit
  indicated_airspeed : Lit
  roll_angle : Lit
deriving DecidableEq, Repr

/-- A decoded raw trace document; an `Option` field is `none` when the key
is missing from the JSON object (or carries JSON null, which
`data.get(key, default)` treats the same way for the guarded keys).  The
`year` field carries the decoded JSON value itself (`Lit`), because the
source converts it with `int(data.get('year', 0))`, which can raise. -/
structure TraceDoc where
  icao : Option String
  r : Option String
  t : Option String
  dbFlags : Option Int
  noRegData : Option Bool
  ownOp : Option String
  year : Option Lit
  timestamp : Option Int
  desc : Option String
  trace : Option (List Sample)
deriving DecidableEq, Repr

/-- `ALLOWED_DATA_SOURCE` from download_adsb_data_to_parquet.py. -/
def ALLOWED_DATA_SOURCE : List String :=
  ["", "adsb.lol", "adsbexchange", "airplanes.live"]

/-- The keys read out of the per-sample aircraft object, with the default
each `aircraft.get(key, default)` call uses. -/
def AIRCRAFT_KEYS : List (String × Lit) :=
  [("alert", Lit.null), ("alt_geom", Lit.null), ("gva", Lit.null),
   ("nac_p", Lit.null), ("nac_v", Lit.null), ("nic", Lit.null),
   ("nic_baro", Lit.null), ("rc", Lit.null), ("sda", Lit.null),
   ("sil", Lit.null), ("sil_type", Lit.str ""), ("spi", Lit.null),
   ("track", Lit.null), ("type", Lit.str ""), ("version", Lit.null),
   ("category", Lit.str ""), ("emergency", Lit.str ""),
   ("flight", Lit.str ""), ("squawk", Lit.str ""), ("baro_rate", Lit.null),
   ("nav_altitude_fms", Lit.null), ("nav_altitude_mcp", Lit.null),
   ("nav_modes", Lit.listS []), ("nav_qnh", Lit.null),
   ("geom_rate", Lit.null), ("ias", Lit.null), ("mach", Lit.null),
   ("mag_heading", Lit.null), ("oat", Lit.null), ("roll", Lit.null),
   ("tas", Lit.null), ("tat", Lit.null), ("true_heading", Lit.null),
   ("wd", Lit.null), ("ws", Lit.null), ("track_rate", Lit.null),
   ("nav_heading", Lit.null)]

/-- `dict.get(k, d)` over an association list. -/
def agetD (kvs : List (String × Lit)) (k : String) (d : Lit) : Lit :=
  match kvs.lookup k with
  | some v => v
  | none => d

/-- One normalized observation row, in the order `inserted_row` is built. -/
structure RawRow where
  time : Int
  icao : String
  r : String
  t : String
  dbFlags : Int
  noRegData : Bool
  ownOp : String
  year : Int
  desc : String
  lat : Lit
  lon : Lit
  alt_baro : Option Int
  on_ground : Bool
  ground_speed : Lit
  track_degrees : Lit
  flags : Lit
  vertical_rate : Lit
  source : Lit
  geometric_altitude : Lit
  geometric_vertical_rate : Lit
  indicated_airspeed : Lit
  roll_angle : Lit
  aircraftVals : List Lit
  data_source : String
deriving DecidableEq, Repr

/-- The per-sample body of the loop in `process_file`. -/
def processSample (icao r t : String) (dbFlags : Int) (noRegData : Bool)
    (ownOp : String) (year : Int) (desc : String) (timestamp : Int)
    (s : Sample) : RawRow :=
  let ab : Option Int × Bool :=
    match s.altitude with
    | Alt.str v => if v = "ground" then (none, true) else (none, false)
    | Alt.int n => (some n, false)
    | Alt.null => (none, false)
  let kvs :=
    match s.aircraft with
    | some kvs => kvs
    | none => []
  { time := timestamp + s.time_offset
    icao := icao
    r := r
    t := t
    dbFlags := dbFlags
    noRegData := noRegData
    ownOp := ownOp
    year := year
    desc := desc
    lat := s.lat
    lon := s.lon
    alt_baro := ab.1
    on_ground := ab.2
    ground_speed := s.ground_speed
    track_degrees := s.track_degrees
    flags := s.flags
    vertical_rate := s.vertical_rate
    source := s.source
    geometric_altitude := s.geometric_altitude
    geometric_vertical_rate := s.geometric_vertical_rate
    indicated_airspeed := s.indicated_airspeed
    roll_angle := s.roll_angle
    aircraftVals := AIRCRAFT_KEYS.map (fun kd => agetD kvs kd.1 kd.2)
    data_source := if "adsb.lol" ∈ ALLOWED_DATA_SOURCE then "adsb.lol" else "" }

/-- Python `int(...)` applied to a decoded JSON value, as in
`int(data.get('year', 0))`: an integer passes through, a numeric string
parses, and null or any other non-numeric value raises (`none`). -/
def pyInt : Lit → Option Int
  | Lit.int n => some n
  | Lit.str s => s.toInt?
  | Lit.null => none
  | Lit.listS _ => none

/-- Shallow embedding of `process_file(filepath)` over the decoded
document; `none` models an exception escaping `process_file`.  A document
without `icao` yields `some []` at once; otherwise
`int(data.get('year', 0))` runs next and raises (`none`) on a null or
non-numeric year; only then the timestamp/trace guard yields `some []`
when either is missing, and one row per sample otherwise. -/
def process_file (d : TraceDoc) : Option (List RawRow) :=
  match d.icao with
  | none => some []
  | some icao =>
    match pyInt (d.year.getD (Lit.int 0)) with
    | none => none
    | some year =>
      match d.timestamp, d.trace with
      | some ts, some tr =>
        some (tr.map (processSample icao (d.r.getD "") (d.t.getD "")
          (d.dbFlags.getD 0) (d.noRegData.getD false) (d.ownOp.getD "")
          year (d.desc.getD "") ts))
      | _, _ => some []

/-- `safe_process` from process_icao_chunk.py: the parsed rows, or `[]`
when `process_file` raised (the exception is caught and logged). -/
def safe_process (d : TraceDoc) : List RawRow :=
  match process_file d with
  | some rows => rows
  | none => []

/-- The domination relation in the words of the specification: every
(field, value) pair present and non-empty in `a` is present with the same
value in `b`, and the set of non-empty identity fields of `b` is strictly
larger than that of `a`. -/
def DominatesSpec (a b : Row) : Prop :=
  (∀ c ∈ COLUMNS, a.fields.get c ≠ "" → b.fields.get c = a.fields.get c) ∧
  nonEmptyCols a.fields ⊆ nonEmptyCols b.fields ∧
  ¬ nonEmptyCols b.fields ⊆ nonEmptyCols a.fields

/-! ### Generic lemmas about first-occurrence deduplication -/

theorem mem_of_mem_dedupFirstBy {α K : Type} [DecidableEq K] (key : α → K) :
    ∀ (seen : List K) (l : List α) (a : α),
      a ∈ dedupFirstBy key seen l → a ∈ l := by
  intro seen l
  induction l generalizing seen with
  | nil => intro a h; simp [dedupFirstBy] at h
  | cons b t ih =>
    intro a h
    by_cases hb : key b ∈ seen
    · simp only [dedupFirstBy, if_pos hb] at h
      exact List.mem_cons_of_mem _ (ih seen a h)
    · simp only [dedupFirstBy, if_neg hb, List.mem_cons] at h
      rcases h with h | h
      · exact h ▸ List.mem_cons_self _ _
      · exact List.mem_cons_of_mem _ (ih _ a h)

theorem key_not_seen_of_mem_dedupFirstBy {α K : Type} [DecidableEq K] (key : α → K) :
    ∀ (seen : List K) (l : List α) (a : α),
      a ∈ dedupFirstBy key seen l → key a ∉ seen := by
  intro seen l
  induction l generalizing seen with
  | nil => intro a h; simp [dedupFirstBy] at h
  | cons b t ih =>
    intro a h
    by_cases hb : key b ∈ seen
    · simp only [dedupFirstBy, if_pos hb] at h
      exact ih seen a h
    · simp only [dedupFirstBy, if_neg hb, List.mem_cons] at h
      rcases h with h | h
      · exact h ▸ hb
      · intro hc
        exact ih _ a h (List.mem_cons_of_mem _ hc)

theorem pairwise_key_dedupFirstBy {α K : Type} [DecidableEq K] (key : α → K) :
    ∀ (seen : List K) (l : List α),
      (dedupFirstBy key seen l).Pairwise (fun a b => key a ≠ key b) := by
  intro seen l
  induction l generalizing seen with
  | nil => simp [dedupFirstBy]
  | cons b t ih =>
    by_cases hb : key b ∈ seen
    · simpa only [dedupFirstBy, if_pos hb] using ih seen
    · simp only [dedupFirstBy, if_neg hb]
      refine List.Pairwise.cons (fun a ha => ?_) (ih _)
      intro hk
      exact key_not_seen_of_mem_dedupFirstBy key _ t a ha
        (hk ▸ List.mem_cons_self _ _)

theorem exists_mem_dedupFirstBy {α K : Type} [DecidableEq K] (key : α → K) :
    ∀ (seen : List K) (l : List α) (s : α),
      s ∈ l → key s ∉ seen →
      ∃ r ∈ dedupFirstBy key seen l, key r = key s := by
  intro seen l
  induction l generalizing seen with
  | nil => intro s h; simp at h
  | cons b t ih =>
    intro s hs hseen
    by_cases hb : key b ∈ seen
    · simp only [dedupFirstBy, if_pos hb]
      rcases List.mem_cons.mp hs with rfl | hs
      · exact absurd hb hseen
      · exact ih seen s hs hseen
    · simp only [dedupFirstBy, if_neg hb]
      rcases List.mem_cons.mp hs with rfl | hs
      · exact ⟨s, List.mem_cons_self _ _, rfl⟩
      · by_cases hk : key s = key b
        · exact ⟨b, List.mem_cons_self _ _, hk.symm⟩
        · have hnotin : key s ∉ key b :: seen := by
            intro h
            rcases List.mem_cons.mp h with h | h
            · exact hk h
            · exact hseen h
          obtain ⟨r, hr, hkey⟩ := ih (key b :: seen) s hs hnotin
          exact ⟨r, List.mem_cons_of_mem _ hr, hkey⟩

theorem dedupFirstBy_nil_ne_nil {α K : Type} [DecidableEq K] (key : α → K)
    (l : List α) (h : l ≠ []) : dedupFirstBy key [] l ≠ [] := by
  cases l with
  | nil => exact absurd rfl h
  | cons b t => simp [dedupFirstBy]

theorem first_of_key_dedupFirstBy {α K : Type} [DecidableEq K] (key : α → K)
    (le : α → α → Prop) :
    ∀ (seen : List K) (l : List α), l.Pairwise le →
      ∀ r ∈ dedupFirstBy key seen l, ∀ s ∈ l, key s = key r → r = s ∨ le r s := by
  intro seen l
  induction l generalizing seen with
  | nil => intro _ r hr; simp [dedupFirstBy] at hr
  | cons b t ih =>
    intro hpw r hr s hs hk
    have hpwt := List.Pairwise.sublist (List.sublist_cons_self b t) hpw
    by_cases hb : key b ∈ seen
    · simp only [dedupFirstBy, if_pos hb] at hr
      rcases List.mem_cons.mp hs with rfl | hs
      · exfalso
        exact key_not_seen_of_mem_dedupFirstBy key seen t r hr (hk ▸ hb)
      · exact ih seen hpwt r hr s hs hk
    · simp only [dedupFirstBy, if_neg hb, List.mem_cons] at hr
      rcases hr with rfl | hr
      · rcases List.mem_cons.mp hs with rfl | hs
        · exact Or.inl rfl
        · exact Or.inr ((List.pairwise_cons.mp hpw).1 s hs)
      · rcases List.mem_cons.mp hs with rfl | hs
        · exfalso
          exact key_not_seen_of_mem_dedupFirstBy key _ t r hr
            (hk ▸ List.mem_cons_self _ _)
        · exact ih _ hpwt r hr s hs hk

/-! ### Order lemmas for the lexicographic comparisons -/

theorem charListLt_irrefl : ∀ l : List Char, charListLt l l = false := by
  intro l
  induction l with
  | nil => rfl
  | cons a t ih => simp [charListLt, ih]

theorem charListLt_asymm :
    ∀ {a b : List Char}, charListLt a b = true → charListLt b a = false := by
  intro a
  induction a with
  | nil => intro b h; cases b <;> simp_all [charListLt]
  | cons x xs ih =>
    intro b h
    cases b with
    | nil => simp [charListLt] at h
    | cons y ys =>
      simp only [charListLt] at h ⊢
      by_cases hxy : x < y
      · have : ¬ y < x := lt_asymm hxy
        simp [hxy, this]
      · by_cases hyx : y < x
        · simp [hxy, hyx] at h
        · simp only [if_neg hxy, if_neg hyx] at h ⊢
          exact ih h

theorem charListLt_trans :
    ∀ {a b c : List Char}, charListLt a b = true → charListLt b c = true →
      charListLt a c = true := by
  intro a
  induction a with
  | nil =>
    intro b c hab hbc
    cases b with
    | nil => simp [charListLt] at hab
    | cons y ys =>
      cases c with
      | nil => simp [charListLt] at hbc
      | cons z zs => simp [charListLt]
  | cons x xs ih =>
    intro b c hab hbc
    cases b with
    | nil => simp [charListLt] at hab
    | cons y ys =>
      cases c with
      | nil => simp [charListLt] at hbc
      | cons z zs =>
        simp only [charListLt] at hab hbc ⊢
        by_cases hxy : x < y
        · by_cases hyz : y < z
          · simp [lt_trans hxy hyz]
          · by_cases hzy : z < y
            · simp [hyz, hzy] at hbc
            · have hyz2 : y = z := le_antisymm (not_lt.mp hzy) (not_lt.mp hyz)
              simp [hyz2 ▸ hxy]
        · by_cases hyx : y < x
          · simp [hxy, hyx] at hab
          · have hxy2 : x = y := le_antisymm (not_lt.mp hyx) (not_lt.mp hxy)
            simp only [if_neg hxy, if_neg hyx] at hab
            by_cases hyz : y < z
            · simp [hxy2 ▸ hyz]
            · by_cases hzy : z < y
              · simp [hyz, hzy] at hbc
              · simp only [if_neg hyz, if_neg hzy] at hbc
                have hxz : ¬ x < z := hxy2 ▸ hyz
                have hzx : ¬ z < x := hxy2 ▸ hzy
                simp only [if_neg hxz, if_neg hzx]
                exact ih hab hbc

theorem charListLt_connex :
    ∀ {a b : List Char}, a ≠ b → charListLt a b = true ∨ charListLt b a = true := by
  intro a
  induction a with
  | nil =>
    intro b h
    cases b with
    | nil => exact absurd rfl h
    | cons y ys => simp [charListLt]
  | cons x xs ih =>
    intro b h
    cases b with
    | nil => simp [charListLt]
    | cons y ys =>
      by_cases hxy : x < y
      · left; simp [charListLt, hxy]
      · by_cases hyx : y < x
        · right; simp [charListLt, hyx, lt_asymm hyx]
        · have hxy2 : x = y := le_antisymm (not_lt.mp hyx) (not_lt.mp hxy)
          subst hxy2
          have hne : xs ≠ ys := by
            intro he
            exact h (he ▸ rfl)
          rcases ih hne with h1 | h1
          · left; simp [charListLt, h1, lt_irrefl]
          · right; simp [charListLt, h1, lt_irrefl]

theorem strLt_irrefl (s : String) : strLt s s = false :=
  charListLt_irrefl s.data

theorem strLt_asymm {a b : String} (h : strLt a b = true) : strLt b a = false :=
  charListLt_asymm h

theorem strLt_trans {a b c : String} (h1 : strLt a b = true)
    (h2 : strLt b c = true) : strLt a c = true :=
  charListLt_trans h1 h2

theorem strLt_connex {a b : String} (h : a ≠ b) :
    strLt a b = true ∨ strLt b a = true := by
  refine charListLt_connex (fun he => h ?_)
  cases a
  cases b
  exact congrArg String.mk he

theorem rowLt_asymm {a b : Row} (h : rowLt a b = true) : rowLt b a = false := by
  simp only [rowLt, Bool.or_eq_true, Bool.and_eq_true, decide_eq_true_eq] at h
  rcases h with h | ⟨he, ht⟩
  · have h1 : strLt b.icao a.icao = false := strLt_asymm h
    have h2 : b.icao ≠ a.icao := by
      intro he
      rw [he] at h
      rw [strLt_irrefl] at h
      exact Bool.noConfusion h
    simp [rowLt, h1, h2]
  · have h1 : strLt b.icao a.icao = false := by
      rw [← he]
      exact strLt_irrefl _
    have h2 : ¬ b.time < a.time := by omega
    simp [rowLt, h1, h2]

theorem rowLt_neg_trans {a b c : Row} (h1 : rowLt b a = false)
    (h2 : rowLt c b = false) : rowLt c a = false := by
  simp only [rowLt, Bool.or_eq_false_iff, Bool.and_eq_false_iff,
    decide_eq_false_iff_not, decide_eq_true_eq] at h1 h2 ⊢
  obtain ⟨hba, hba2⟩ := h1
  obtain ⟨hcb, hcb2⟩ := h2
  have hicao : strLt c.icao a.icao = false := by
    by_cases hca : c.icao = a.icao
    · rw [hca]
      exact strLt_irrefl _
    · rcases strLt_connex hca with h | h
      · exfalso
        by_cases hab : a.icao = b.icao
        · rw [hab] at h
          rw [h] at hcb
          exact Bool.noConfusion hcb
        · rcases strLt_connex hab with h3 | h3
          · have h4 := strLt_trans h h3
            rw [h4] at hcb
            exact Bool.noConfusion hcb
          · rw [h3] at hba
            exact Bool.noConfusion hba
      · exact strLt_asymm h
  refine ⟨hicao, ?_⟩
  by_cases he : c.icao = a.icao
  · -- c and a share an icao; b must share it too, so the time bounds chain
    have hab : a.icao = b.icao := by
      by_cases hab : a.icao = b.icao
      · exact hab
      · exfalso
        rcases strLt_connex hab with h3 | h3
        · rw [he] at hcb
          rw [h3] at hcb
          exact Bool.noConfusion hcb
        · rw [h3] at hba
          exact Bool.noConfusion hba
    have h1t : ¬ b.time < a.time := by
      rcases hba2 with h | h
      · exact absurd hab.symm h
      · exact h
    have h2t : ¬ c.time < b.time := by
      rcases hcb2 with h | h
      · exact absurd (he.trans hab) h
      · exact h
    right
    omega
  · exact Or.inl he

theorem timeLt_asymm {a b : Row} (h : timeLt a b = true) : timeLt b a = false := by
  simp only [timeLt, decide_eq_true_eq, decide_eq_false_iff_not] at h ⊢
  omega

theorem timeLt_neg_trans {a b c : Row} (h1 : timeLt b a = false)
    (h2 : timeLt c b = false) : timeLt c a = false := by
  simp only [timeLt, decide_eq_false_iff_not] at h1 h2 ⊢
  omega

/-! ### Stable insertion sort lemmas -/

theorem insertBy_perm (lt : Row → Row → Bool) (a : Row) :
    ∀ l : List Row, List.Perm (insertBy lt a l) (a :: l) := by
  intro l
  induction l with
  | nil => simp [insertBy]
  | cons b t ih =>
    by_cases h : lt b a = true
    · simp only [insertBy, if_pos h]
      exact (ih.cons b).trans (List.Perm.swap a b t)
    · simp only [insertBy, if_neg h]
      exact List.Perm.refl _

theorem sortBy_perm (lt : Row → Row → Bool) :
    ∀ l : List Row, List.Perm (sortBy lt l) l := by
  intro l
  induction l with
  | nil => simp [sortBy]
  | cons a t ih => exact (insertBy_perm lt a (sortBy lt t)).trans (ih.cons a)

theorem mem_insertBy {lt : Row → Row → Bool} {a x : Row} {l : List Row} :
    x ∈ insertBy lt a l ↔ x = a ∨ x ∈ l := by
  rw [(insertBy_perm lt a l).mem_iff]
  simp

theorem pairwise_insertBy {lt : Row → Row → Bool}
    (hasymm : ∀ x y : Row, lt x y = true → lt y x = false)
    (htrans : ∀ x y z : Row, lt y x = false → lt z y = false → lt z x = false)
    (a : Row) :
    ∀ l : List Row, l.Pairwise (fun x y => lt y x = false) →
      (insertBy lt a l).Pairwise (fun x y => lt y x = false) := by
  intro l
  induction l with
  | nil => intro _; simp [insertBy]
  | cons b t ih =>
    intro hl
    obtain ⟨hb, ht⟩ := List.pairwise_cons.mp hl
    by_cases h : lt b a = true
    · simp only [insertBy, if_pos h]
      refine List.Pairwise.cons (fun x hx => ?_) (ih ht)
      rcases mem_insertBy.mp hx with rfl | hx
      · exact hasymm _ _ h
      · exact hb x hx
    · simp only [insertBy, if_neg h]
      refine List.Pairwise.cons (fun x hx => ?_) hl
      rcases List.mem_cons.mp hx with rfl | hx
      · exact Bool.eq_false_iff.mpr h
      · exact htrans _ _ _ (Bool.eq_false_iff.mpr h) (hb x hx)

theorem pairwise_sortBy {lt : Row → Row → Bool}
    (hasymm : ∀ x y : Row, lt x y = true → lt y x = false)
    (htrans : ∀ x y z : Row, lt y x = false → lt z y = false → lt z x = false) :
    ∀ l : List Row, (sortBy lt l).Pairwise (fun x y => lt y x = false) := by
  intro l
  induction l with
  | nil => simp [sortBy]
  | cons a t ih => exact pairwise_insertBy hasymm htrans a (sortBy lt t) ih

theorem filter_insertBy_neg {lt : Row → Row → Bool} {p : Row → Bool}
    {a : Row} (ha : p a = false) :
    ∀ l : List Row, (insertBy lt a l).filter p = l.filter p := by
  intro l
  induction l with
  | nil => simp [insertBy, List.filter, ha]
  | cons b t ih =>
    by_cases h : lt b a = true
    · simp only [insertBy, if_pos h, List.filter_cons]
      rw [ih]
    · simp only [insertBy, if_neg h, List.filter_cons, ha]
      simp

theorem filter_insertBy_pos {K : Type} [DecidableEq K] {lt : Row → Row → Bool}
    (g : Row → K)
    (hkey : ∀ x y z : Row, lt y x = false → lt z y = false → g x = g z → g x = g y)
    {v : K} {a : Row} (ha : g a = v) :
    ∀ l : List Row, l.Pairwise (fun x y => lt y x = false) →
      (insertBy lt a l).filter (fun r => g r = v) =
        insertBy lt a (l.filter (fun r => g r = v)) := by
  intro l
  induction l with
  | nil => simp [insertBy, List.filter, ha]
  | cons b t ih =>
    intro hl
    obtain ⟨hb, ht⟩ := List.pairwise_cons.mp hl
    by_cases h : lt b a = true
    · simp only [insertBy, if_pos h, List.filter_cons]
      rw [ih ht]
      by_cases hpb : g b = v
      · simp [hpb, insertBy, h]
      · simp [hpb]
    · simp only [insertBy, if_neg h, List.filter_cons]
      by_cases hpb : g b = v
      · simp [ha, hpb, insertBy, h]
      · have hnil : t.filter (fun r => g r = v) = [] := by
          rw [List.filter_eq_nil_iff]
          intro c hc
          simp only [decide_eq_true_eq]
          intro hgc
          exact hpb ((hkey _ _ _ (Bool.eq_false_iff.mpr h) (hb c hc) (ha.trans hgc.symm)).symm.trans ha)
        simp [ha, hpb, hnil, insertBy]

theorem filter_sortBy {K : Type} [DecidableEq K] {lt : Row → Row → Bool}
    (g : Row → K)
    (hasymm : ∀ x y : Row, lt x y = true → lt y x = false)
    (htrans : ∀ x y z : Row, lt y x = false → lt z y = false → lt z x = false)
    (hkey : ∀ x y z : Row, lt y x = false → lt z y = false → g x = g z → g x = g y)
    (v : K) :
    ∀ l : List Row, (sortBy lt l).filter (fun r => g r = v) =
      sortBy lt (l.filter (fun r => g r = v)) := by
  intro l
  induction l with
  | nil => simp [sortBy]
  | cons a t ih =>
    by_cases ha : g a = v
    · simp only [sortBy, List.filter_cons, ha, decide_True, cond_true]
      rw [filter_insertBy_pos g hkey ha (sortBy lt t)
        (pairwise_sortBy hasymm htrans t), ih]
    · simp only [sortBy, List.filter_cons, ha, decide_False, cond_false]
      rw [filter_insertBy_neg (by simpa using ha) (sortBy lt t)]
      exact ih

/-! ### Instances of the sort lemmas for the two pipeline sorts -/

theorem rowLt_icao_false {x y : Row} (h : rowLt y x = false) :
    strLt y.icao x.icao = false := by
  simp only [rowLt, Bool.or_eq_false_iff] at h
  exact h.1

theorem rowLt_key_icao (x y z : Row) (h1 : rowLt y x = false)
    (h2 : rowLt z y = false) (h3 : x.icao = z.icao) : x.icao = y.icao := by
  by_cases hxy : x.icao = y.icao
  · exact hxy
  · exfalso
    rcases strLt_connex hxy with h | h
    · by_cases hyz : y.icao = z.icao
      · exact hxy (h3.trans hyz.symm)
      · rcases strLt_connex hyz with h4 | h4
        · have h5 := strLt_trans h h4
          rw [h3] at h5
          rw [strLt_irrefl] at h5
          exact Bool.noConfusion h5
        · rw [rowLt_icao_false h2] at h4
          exact Bool.noConfusion h4
    · rw [rowLt_icao_false h1] at h
      exact Bool.noConfusion h

theorem timeLt_key (x y z : Row) (h1 : timeLt y x = false)
    (h2 : timeLt z y = false) (h3 : x.time = z.time) : x.time = y.time := by
  simp only [timeLt, decide_eq_false_iff_not] at h1 h2
  omega

theorem sortRows_perm (l : List Row) : List.Perm (sortRows l) l :=
  sortBy_perm rowLt l

theorem sortByTime_perm (l : List Row) : List.Perm (sortByTime l) l :=
  sortBy_perm timeLt l

theorem sortRows_pairwise (l : List Row) :
    (sortRows l).Pairwise (fun x y => rowLt y x = false) :=
  @pairwise_sortBy rowLt (fun _ _ h => rowLt_asymm h)
    (fun _ _ _ h1 h2 => rowLt_neg_trans h1 h2) l

theorem sortByTime_pairwise (l : List Row) :
    (sortByTime l).Pairwise (fun x y => timeLt y x = false) :=
  @pairwise_sortBy timeLt (fun _ _ h => timeLt_asymm h)
    (fun _ _ _ h1 h2 => timeLt_neg_trans h1 h2) l

theorem sortByTime_pairwise_le (l : List Row) :
    (sortByTime l).Pairwise (fun x y => x.time ≤ y.time) := by
  refine (sortByTime_pairwise l).imp ?_
  intro a b h
  simp only [timeLt, decide_eq_false_iff_not] at h
  omega

theorem filter_sortRows_icao (l : List Row) (i : String) :
    (sortRows l).filter (fun r => r.icao = i) =
      sortRows (l.filter (fun r => r.icao = i)) :=
  @filter_sortBy String _ rowLt Row.icao (fun _ _ h => rowLt_asymm h)
    (fun _ _ _ h1 h2 => rowLt_neg_trans h1 h2) rowLt_key_icao i l

theorem filter_sortByTime_time (l : List Row) (t0 : Nat) :
    (sortByTime l).filter (fun r => r.time = t0) =
      sortByTime (l.filter (fun r => r.time = t0)) :=
  @filter_sortBy Nat _ timeLt Row.time (fun _ _ h => timeLt_asymm h)
    (fun _ _ _ h1 h2 => timeLt_neg_trans h1 h2) timeLt_key t0 l

/-! ### Counting helpers for the partition claim -/

theorem count_filter_eq {α : Type} [DecidableEq α] (p : α → Bool) (l : List α)
    (x : α) : (l.filter p).count x = if p x = true then l.count x else 0 := by
  by_cases hpx : p x = true
  · rw [if_pos hpx, List.count_filter hpx]
  · rw [if_neg hpx, List.count_eq_zero]
    intro hmem
    exact hpx (List.of_mem_filter hmem)

theorem count_flatMap_range {α : Type} [DecidableEq α] (f : Nat → List α)
    (x : α) (n : Nat) :
    ((List.range n).flatMap f).count x =
      ((List.range n).map (fun k => (f k).count x)).sum := by
  induction n with
  | zero => simp
  | succ n ih =>
    rw [List.range_succ]
    simp [List.count_append, ih]

theorem sum_map_range_single (f : Nat → Nat) (n j : Nat) (hj : j < n)
    (h0 : ∀ k, k < n → k ≠ j → f k = 0) :
    ((List.range n).map f).sum = f j := by
  induction n with
  | zero => omega
  | succ n ih =>
    rw [List.range_succ]
    simp only [List.map_append, List.sum_append, List.map_cons, List.map_nil,
      List.sum_cons, List.sum_nil]
    by_cases hjn : j = n
    · subst hjn
      have hz : ((List.range j).map f).sum = 0 := by
        apply List.sum_eq_zero
        intro y hy
        obtain ⟨k, hk, rfl⟩ := List.mem_map.mp hy
        rw [List.mem_range] at hk
        exact h0 k (by omega) (by omega)
      omega
    · have hj2 : j < n := by omega
      rw [ih hj2 (fun k hk hne => h0 k (by omega) hne), h0 n (by omega) (fun h => hjn h.symm)]
      omega

/-! ### Claim theorems -/

/-- Claim C3: the partition function `deterministic_hash(id) % total_chunks`
is a pure function of the identifier's characters (equal character content
gives equal hashes), and for every identifier list and every positive
partition count the chunks given by `get_chunk_icaos` cover the list
exactly: their concatenation over all chunk ids is a permutation of the
input list, and no identifier lies in two different chunks. -/
theorem claim_c3_partition_pure_and_complete :
    (∀ s u : String, s.data = u.data →
      deterministic_hash s = deterministic_hash u) ∧
    (∀ (icaos : List String) (n : Nat), 0 < n →
      List.Perm ((List.range n).flatMap (fun k => get_chunk_icaos icaos k n)) icaos ∧
      (∀ x k₁ k₂, k₁ < n → k₂ < n → x ∈ get_chunk_icaos icaos k₁ n →
        x ∈ get_chunk_icaos icaos k₂ n → k₁ = k₂)) := by
  constructor
  · intro s u h
    unfold deterministic_hash
    rw [h]
  · intro icaos n hn
    constructor
    · rw [List.perm_iff_count]
      intro x
      rw [count_flatMap_range]
      have hx : deterministic_hash x % n < n := Nat.mod_lt _ hn
      have hstep := sum_map_range_single
        (fun k => (get_chunk_icaos icaos k n).count x) n
        (deterministic_hash x % n) hx ?_
      · rw [hstep]
        show (get_chunk_icaos icaos (deterministic_hash x % n) n).count x = icaos.count x
        unfold get_chunk_icaos
        rw [count_filter_eq]
        simp
      · intro k hk hne
        show (get_chunk_icaos icaos k n).count x = 0
        unfold get_chunk_icaos
        rw [count_filter_eq]
        simp only [decide_eq_true_eq, ite_eq_right_iff]
        intro h
        exact (hne h.symm).elim
    · intro x k₁ k₂ hk1 hk2 h1 h2
      unfold get_chunk_icaos at h1 h2
      have e1 := (List.mem_filter.mp h1).2
      have e2 := (List.mem_filter.mp h2).2
      simp only [decide_eq_true_eq] at e1 e2
      omega

/-- Witness for C3 at a concrete identifier list and chunk count. -/
theorem claim_c3_witness :
    List.Perm ((List.range 3).flatMap
      (fun k => get_chunk_icaos ["a0", "b1", "c2", "a0"] k 3))
      ["a0", "b1", "c2", "a0"] :=
  (claim_c3_partition_pure_and_complete.2 ["a0", "b1", "c2", "a0"] 3
    (by decide)).1

theorem process_file_some_nil (d : TraceDoc)
    (hyear : d.icao = none ∨ ∃ y, pyInt (d.year.getD (Lit.int 0)) = some y)
    (hmiss : d.icao = none ∨ d.timestamp = none ∨ d.trace = none) :
    process_file d = some [] := by
  cases hic : d.icao with
  | none => simp [process_file, hic]
  | some icao =>
    obtain ⟨y, hy⟩ : ∃ y, pyInt (d.year.getD (Lit.int 0)) = some y := by
      rcases hyear with hyear | hyear
      · rw [hic] at hyear
        exact Option.noConfusion hyear
      · exact hyear
    rcases hmiss with h | h | h
    · rw [hic] at h
      exact Option.noConfusion h
    · simp [process_file, hic, hy, h]
    · cases hts : d.timestamp with
      | none => simp [process_file, hic, hy, hts]
      | some ts => simp [process_file, hic, hy, hts, h]

/-- Claim C9 counterexample: a raw trace document with its entity id
present, its sample array missing and a JSON-null `year` makes
`process_file` raise instead of returning an empty row list —
`int(data.get('year', 0))` runs before the timestamp/trace guard and
`int(None)` is a TypeError. -/
theorem claim_c9_counterexample :
    process_file
      ⟨some "a0c1d2", some "N123", none, none, none, none, some Lit.null,
        some 1700000000, none, none⟩ = none ∧
    (none : Option (List RawRow)) ≠ some [] :=
  ⟨rfl, fun h => Option.noConfusion h⟩

/-- Claim C9 amended: for a raw trace document in which the entity id,
the base timestamp or the sample array is missing, `process_file` returns
an empty row list and does not raise provided the `year` value converts
(the entity id is missing — the guard runs first — or `int()` succeeds on
the year); when the entity id is present and the year is null or a
non-numeric string, `process_file` raises before the timestamp/trace
guard, and the run continues only because the caller `safe_process`
catches the exception — so on every such document `safe_process` yields
zero rows. -/
theorem claim_c9_missing_keys_yield_no_rows :
    (∀ d : TraceDoc,
      (d.icao = none ∨ ∃ y, pyInt (d.year.getD (Lit.int 0)) = some y) →
      (d.icao = none ∨ d.timestamp = none ∨ d.trace = none) →
      process_file d = some []) ∧
    (∀ d : TraceDoc,
      (d.icao = none ∨ d.timestamp = none ∨ d.trace = none) →
      safe_process d = []) := by
  refine ⟨process_file_some_nil, ?_⟩
  intro d hmiss
  unfold safe_process
  cases hic : d.icao with
  | none =>
    rw [process_file_some_nil d (Or.inl hic) hmiss]
  | some icao =>
    cases hy : pyInt (d.year.getD (Lit.int 0)) with
    | none => simp [process_file, hic, hy]
    | some y =>
      rw [process_file_some_nil d (Or.inr ⟨y, hy⟩) hmiss]

/-- Witness for C9: a concrete document with `trace` missing and an
absent `year` (which converts via the default 0). -/
theorem claim_c9_witness :
    process_file
      ⟨some "abc123", some "N123", none, none, none, none, none,
        some 1700000000, none, none⟩ = some [] :=
  claim_c9_missing_keys_yield_no_rows.1 _ (Or.inr ⟨0, rfl⟩)
    (Or.inr (Or.inr rfl))

theorem mem_of_mem_uniqueLastByIcao :
    ∀ (l : List Row) (a : Row), a ∈ uniqueLastByIcao l → a ∈ l := by
  intro l
  induction l with
  | nil => intro a h; simp [uniqueLastByIcao] at h
  | cons r t ih =>
    intro a h
    by_cases hany : t.any (fun s => s.icao = r.icao) = true
    · simp only [uniqueLastByIcao, if_pos hany] at h
      exact List.mem_cons_of_mem _ (ih a h)
    · simp only [uniqueLastByIcao, if_neg hany, List.mem_cons] at h
      rcases h with rfl | h
      · exact List.mem_cons_self _ _
      · exact List.mem_cons_of_mem _ (ih a h)

theorem uniqueLast_cons_pos {r : Row} {t : List Row}
    (h : (t.any fun s => s.icao = r.icao) = true) :
    uniqueLastByIcao (r :: t) = uniqueLastByIcao t := by
  simp [uniqueLastByIcao, h]

theorem uniqueLast_cons_neg {r : Row} {t : List Row}
    (h : ¬ (t.any fun s => s.icao = r.icao) = true) :
    uniqueLastByIcao (r :: t) = r :: uniqueLastByIcao t := by
  simp only [uniqueLastByIcao, if_neg h]

theorem filter_uniqueLastByIcao (i : String) :
    ∀ l : List Row, (uniqueLastByIcao l).filter (fun r => r.icao = i) =
      ((l.filter (fun r => r.icao = i)).getLast?).toList := by
  intro l
  induction l with
  | nil => simp [uniqueLastByIcao]
  | cons r t ih =>
    by_cases hri : r.icao = i
    · by_cases hany : (t.any fun s => s.icao = r.icao) = true
      · have hne : t.filter (fun s => s.icao = i) ≠ [] := by
          obtain ⟨s, hs, hsr⟩ := List.any_eq_true.mp hany
          simp only [decide_eq_true_eq] at hsr
          intro hnil
          have hmem : s ∈ t.filter (fun s => s.icao = i) :=
            List.mem_filter.mpr ⟨hs, by simp [hsr, hri]⟩
          rw [hnil] at hmem
          simp at hmem
        rw [uniqueLast_cons_pos hany, ih, List.filter_cons]
        simp only [hri, decide_True, cond_true]
        cases hft : t.filter (fun s => decide (s.icao = i)) with
        | nil => exact absurd hft hne
        | cons x xs => simp
      · have hnil : t.filter (fun s => s.icao = i) = [] := by
          rw [List.filter_eq_nil_iff]
          intro s hs
          simp only [decide_eq_true_eq]
          intro hsi
          exact hany (List.any_eq_true.mpr ⟨s, hs, by simp [hsi, hri]⟩)
        rw [uniqueLast_cons_neg hany]
        simp only [List.filter_cons, hri, decide_True, cond_true]
        rw [ih, hnil]
        rfl
    · by_cases hany : (t.any fun s => s.icao = r.icao) = true
      · rw [uniqueLast_cons_pos hany, ih, List.filter_cons]
        simp [hri]
      · rw [uniqueLast_cons_neg hany]
        simp only [List.filter_cons, hri, decide_False, cond_false]
        exact ih

/-- Claim C6: in the baseline merge, for an entity id present in both the
base dataset and the new dataset (with the new dataset canonical, one row
for that id), the merged output carries exactly the new dataset's row for
that id, whatever the timestamps of the two rows are. -/
theorem claim_c6_merge_prefers_new (base new : List Row) (i : String)
    (rn : Row) (hnew : new.filter (fun r => r.icao = i) = [rn])
    (hbase : ∃ rb ∈ base, rb.icao = i) :
    (merge_base base new).filter (fun r => r.icao = i) = [rn] := by
  unfold merge_base
  rw [filter_uniqueLastByIcao, List.filter_append, hnew,
    List.getLast?_concat]
  rfl

/-- Witness for C6: the base row for `X` is older but loses to the new row. -/
theorem claim_c6_witness :
    (merge_base [⟨9, "X", ⟨"", "", "", "", "", "N1", ""⟩⟩]
        [⟨1, "X", ⟨"", "", "", "", "", "N2", "B738"⟩⟩]).filter
      (fun r => r.icao = "X") =
      [⟨1, "X", ⟨"", "", "", "", "", "N2", "B738"⟩⟩] :=
  claim_c6_merge_prefers_new _ _ _ _ (by decide)
    ⟨⟨9, "X", ⟨"", "", "", "", "", "N1", ""⟩⟩, List.mem_singleton.mpr rfl, rfl⟩

theorem foldl_addNullColumn (cs : List String) :
    ∀ f : Frame, cs.foldl addNullColumn f =
      ⟨f.cols ++ cs, f.rows.map
        (fun row => row ++ cs.map (fun _ => (none : Option String)))⟩ := by
  induction cs with
  | nil =>
    intro f
    simp only [List.foldl_nil, List.map_nil, List.append_nil]
    cases f with
    | mk cols rows => simp
  | cons c cs ih =>
    intro f
    rw [List.foldl_cons, ih]
    simp only [addNullColumn, List.map_cons, List.map_map]
    congr 1
    · simp
    · apply List.map_congr_left
      intro row _
      simp

/-- Claim C7 counterexample: reconciling a base frame lacking the `desc`
column against a new frame that has it fills the added cells with null
(`pl.lit(None)`), not with the empty-string sentinel. -/
theorem claim_c7_counterexample :
    ((reconcileColumns ⟨["icao"], [[some "a0"]]⟩
        ⟨["icao", "desc"], [[some "a0", some "jet"]]⟩).1.rows =
      [[some "a0", none]]) ∧
    (none : Option String) ≠ some "" := by
  constructor
  · rfl
  · intro h
    exact Option.noConfusion h

/-- Claim C7 amended: when the baseline merge unions datasets whose column
sets differ, each side gains every column only the other side has, filled
with null (the absent marker, not the empty-string sentinel) in all of its
rows, and the reconciliation is total — both sides end with the same
column set (the union), so no error is raised. -/
theorem claim_c7_reconcile_fills_null (base new : Frame) :
    ((reconcileColumns base new).1.cols =
      base.cols ++ new.cols.filter (fun c => c ∉ base.cols)) ∧
    ((reconcileColumns base new).1.rows = base.rows.map
      (fun row => row ++ (new.cols.filter (fun c => c ∉ base.cols)).map
        (fun _ => (none : Option String)))) ∧
    ((reconcileColumns base new).2.cols =
      new.cols ++ base.cols.filter (fun c => c ∉ new.cols)) ∧
    ((reconcileColumns base new).2.rows = new.rows.map
      (fun row => row ++ (base.cols.filter (fun c => c ∉ new.cols)).map
        (fun _ => (none : Option String)))) ∧
    (∀ c, c ∈ (reconcileColumns base new).1.cols ↔
      c ∈ (reconcileColumns base new).2.cols) := by
  unfold reconcileColumns
  rw [foldl_addNullColumn, foldl_addNullColumn]
  refine ⟨rfl, rfl, rfl, rfl, ?_⟩
  intro c
  simp only [List.mem_append, List.mem_filter, decide_eq_true_eq]
  constructor
  · rintro (h | ⟨h, -⟩)
    · by_cases hn : c ∈ new.cols
      · exact Or.inl hn
      · exact Or.inr ⟨h, by simpa using hn⟩
    · exact Or.inl h
  · rintro (h | ⟨h, -⟩)
    · by_cases hb : c ∈ base.cols
      · exact Or.inl hb
      · exact Or.inr ⟨h, by simpa using hb⟩
    · exact Or.inl h

theorem sortByTime_of_const {t0 : Nat} :
    ∀ l : List Row, (∀ r ∈ l, r.time = t0) → sortByTime l = l := by
  intro l
  induction l with
  | nil => intro _; rfl
  | cons a t ih =>
    intro h
    have ht : sortByTime t = t := ih (fun r hr => h r (List.mem_cons_of_mem _ hr))
    show insertBy timeLt a (sortBy timeLt t) = a :: t
    rw [show sortBy timeLt t = sortByTime t from rfl, ht]
    cases t with
    | nil => rfl
    | cons b u =>
      have hb : timeLt b a = false := by
        simp only [timeLt, decide_eq_false_iff_not]
        rw [h a (List.mem_cons_self _ _), h b (List.mem_cons_of_mem _ (List.mem_cons_self _ _))]
        omega
      simp [insertBy, hb]

/-- Claim C8 counterexample: the final sort is `df.sort('time')` alone;
two rows with equal timestamps stay in input order even when their entity
ids are in descending order, and the output depends on the input order of
the row set. -/
theorem claim_c8_counterexample :
    sortByTime [⟨5, "b1", default⟩, ⟨5, "a0", default⟩] =
      [⟨5, "b1", default⟩, ⟨5, "a0", default⟩] ∧
    (⟨5, "b1", default⟩ : Row).time = (⟨5, "a0", default⟩ : Row).time ∧
    strLt (⟨5, "a0", default⟩ : Row).icao (⟨5, "b1", default⟩ : Row).icao = true ∧
    sortByTime [⟨5, "b1", default⟩, ⟨5, "a0", default⟩] ≠
      sortByTime [⟨5, "a0", default⟩, ⟨5, "b1", default⟩] := by
  refine ⟨rfl, rfl, by decide, by decide⟩

/-- Claim C8 amended: the written output is sorted by timestamp only
(nondecreasing), as a stable permutation of the combined rows: rows with
equal timestamps keep their relative input order and are not reordered by
entity id, so the artifact is a function of the input row sequence rather
than of the row set alone. -/
theorem claim_c8_sorted_by_time_stable (rows : List Row) :
    List.Perm (sortByTime rows) rows ∧
    (sortByTime rows).Pairwise (fun a b => a.time ≤ b.time) ∧
    ∀ t0, (sortByTime rows).filter (fun r => r.time = t0) =
      rows.filter (fun r => r.time = t0) := by
  refine ⟨sortByTime_perm rows, sortByTime_pairwise_le rows, ?_⟩
  intro t0
  rw [filter_sortByTime_time]
  apply sortByTime_of_const
  intro r hr
  exact of_decide_eq_true (List.mem_filter.mp hr).2

/-- Claim C5: cross-chunk reconciliation (`deduplicate_by_signature`)
groups already-aggregated rows by (entity id, signature); for every group
it keeps exactly one row — an unmodified input row whose timestamp is
minimal in its group — and drops all the others.  No domination filtering
is applied: every surviving row is an input row kept purely by its
(entity id, signature) key and earliest timestamp. -/
theorem claim_c5_dedup_by_signature_keeps_earliest (rows : List Row) :
    (∀ r ∈ deduplicate_by_signature rows, r ∈ rows ∧
      ∀ s ∈ rows, s.icao = r.icao → sigOf s.fields = sigOf r.fields →
        r.time ≤ s.time) ∧
    ((deduplicate_by_signature rows).Pairwise
      (fun a b => a.icao ≠ b.icao ∨ sigOf a.fields ≠ sigOf b.fields)) ∧
    (∀ s ∈ rows, ∃ r ∈ deduplicate_by_signature rows,
      r.icao = s.icao ∧ sigOf r.fields = sigOf s.fields) := by
  have hdd : deduplicate_by_signature rows =
      sortByTime (dedupFirstBy (fun r => (r.icao, sigOf r.fields)) []
        (sortByTime rows)) := rfl
  have hmem : ∀ r, r ∈ deduplicate_by_signature rows ↔
      r ∈ dedupFirstBy (fun r => (r.icao, sigOf r.fields)) []
        (sortByTime rows) := by
    intro r
    rw [hdd, (sortByTime_perm _).mem_iff]
  refine ⟨?_, ?_, ?_⟩
  · intro r hr
    have hr2 := (hmem r).mp hr
    have hrin : r ∈ sortByTime rows :=
      mem_of_mem_dedupFirstBy _ _ _ _ hr2
    refine ⟨(sortByTime_perm rows).subset hrin, ?_⟩
    intro s hs hicao hsig
    have hs2 : s ∈ sortByTime rows := (sortByTime_perm rows).mem_iff.mpr hs
    have hkey : (fun r : Row => (r.icao, sigOf r.fields)) s =
        (fun r : Row => (r.icao, sigOf r.fields)) r := by
      simp only [Prod.mk.injEq]
      exact ⟨hicao, hsig⟩
    rcases first_of_key_dedupFirstBy (fun r : Row => (r.icao, sigOf r.fields))
      (fun a b => a.time ≤ b.time) [] (sortByTime rows)
      (sortByTime_pairwise_le rows) r hr2 s hs2 hkey with h | h
    · exact h ▸ Nat.le_refl _
    · exact h
  · have hpw := pairwise_key_dedupFirstBy
      (fun r : Row => (r.icao, sigOf r.fields)) [] (sortByTime rows)
    have hsymm : ∀ {x y : Row},
        (x.icao ≠ y.icao ∨ sigOf x.fields ≠ sigOf y.fields) →
        (y.icao ≠ x.icao ∨ sigOf y.fields ≠ sigOf x.fields) := by
      intro x y h
      rcases h with h | h
      · exact Or.inl (fun he => h he.symm)
      · exact Or.inr (fun he => h he.symm)
    have hpw2 : (dedupFirstBy (fun r : Row => (r.icao, sigOf r.fields)) []
        (sortByTime rows)).Pairwise
        (fun a b => a.icao ≠ b.icao ∨ sigOf a.fields ≠ sigOf b.fields) := by
      refine hpw.imp ?_
      intro a b h
      by_cases hi : a.icao = b.icao
      · refine Or.inr (fun hs => h ?_)
        simp [hi, hs]
      · exact Or.inl hi
    rw [hdd]
    exact (List.Perm.pairwise_iff hsymm (sortByTime_perm _)).mpr hpw2
  · intro s hs
    have hs2 : s ∈ sortByTime rows := (sortByTime_perm rows).mem_iff.mpr hs
    obtain ⟨r, hr, hkey⟩ := exists_mem_dedupFirstBy
      (fun r : Row => (r.icao, sigOf r.fields)) [] (sortByTime rows) s hs2
      (by simp)
    refine ⟨r, (hmem r).mpr hr, ?_⟩
    simpa [Prod.mk.injEq] using hkey

/-- Witness for C5: two aggregated chunks share the (icao, signature)
pair; only the earlier-timestamped row survives. -/
theorem claim_c5_witness :
    ∃ r ∈ deduplicate_by_signature
      [⟨7, "a0", ⟨"", "", "", "", "", "N1", "B738"⟩⟩,
       ⟨3, "a0", ⟨"", "", "", "", "", "N1", "B738"⟩⟩],
      r.icao = (⟨7, "a0", ⟨"", "", "", "", "", "N1", "B738"⟩⟩ : Row).icao ∧
      sigOf r.fields =
        sigOf (⟨7, "a0", ⟨"", "", "", "", "", "N1", "B738"⟩⟩ : Row).fields :=
  (claim_c5_dedup_by_signature_keeps_earliest _).2.2
    ⟨7, "a0", ⟨"", "", "", "", "", "N1", "B738"⟩⟩ (List.mem_cons_self _ _)

/-! ### Lemmas about the domination filter of `compress_df` -/

theorem mem_of_getElem_some {α : Type} {l : List α} {i : Nat} {x : α}
    (h : l[i]? = some x) : x ∈ l := by
  have hi : i < l.length := by
    by_contra hc
    rw [List.getElem?_eq_none (by omega)] at h
    exact Option.noConfusion h
  rw [List.getElem?_eq_getElem hi] at h
  injection h with h2
  exact h2 ▸ List.getElem_mem hi

theorem mem_keepIdx_iff (reps : List Row) (i : Nat) :
    i ∈ keepIdx reps ↔
      ∃ a, reps[i]? = some a ∧ isSubsetOfAny reps i a = false := by
  unfold keepIdx
  simp only [List.mem_map, List.mem_filter]
  constructor
  · rintro ⟨⟨j, a⟩, ⟨hmem, hP⟩, rfl⟩
    refine ⟨a, List.mk_mem_enum_iff_getElem?.mp hmem, ?_⟩
    simpa using hP
  · rintro ⟨a, hget, hP⟩
    exact ⟨(i, a), ⟨List.mk_mem_enum_iff_getElem?.mpr hget, by simpa using hP⟩, rfl⟩

theorem isSubsetOfAny_eq_true_iff (reps : List Row) (idx : Nat) (a : Row) :
    isSubsetOfAny reps idx a = true ↔
      ∃ j b, reps[j]? = some b ∧ j ≠ idx ∧ domBool a.fields b.fields = true := by
  unfold isSubsetOfAny
  rw [List.any_eq_true]
  constructor
  · rintro ⟨⟨j, b⟩, hmem, hP⟩
    simp only [Bool.and_eq_true, decide_eq_true_eq] at hP
    exact ⟨j, b, List.mk_mem_enum_iff_getElem?.mp hmem, hP.1, hP.2⟩
  · rintro ⟨j, b, hget, hne, hdom⟩
    exact ⟨(j, b), List.mk_mem_enum_iff_getElem?.mpr hget, by simp [hne, hdom]⟩

theorem domBool_length_lt {a b : Fields} (h : domBool a b = true) :
    (nonEmptyCols a).length < (nonEmptyCols b).length := by
  unfold domBool at h
  simp only [Bool.and_eq_true, decide_eq_true_eq] at h
  exact h.2

theorem exists_max_measure {α : Type} (f : α → Nat) :
    ∀ l : List α, l ≠ [] → ∃ a ∈ l, ∀ b ∈ l, f b ≤ f a := by
  intro l
  induction l with
  | nil => intro h; exact absurd rfl h
  | cons a t ih =>
    intro _
    cases t with
    | nil =>
      refine ⟨a, List.mem_cons_self _ _, ?_⟩
      intro b hb
      have hba : b = a := by simpa using hb
      rw [hba]
    | cons c u =>
      obtain ⟨m, hm, hmax⟩ := ih (by simp)
      by_cases hcmp : f a ≤ f m
      · refine ⟨m, List.mem_cons_of_mem _ hm, ?_⟩
        intro b hb
        rcases List.mem_cons.mp hb with rfl | hb
        · exact hcmp
        · exact hmax b hb
      · refine ⟨a, List.mem_cons_self _ _, ?_⟩
        intro b hb
        rcases List.mem_cons.mp hb with rfl | hb
        · exact Nat.le_refl _
        · exact Nat.le_trans (hmax b hb) (by omega)

theorem keepIdx_ne_nil (reps : List Row) (h : reps ≠ []) :
    keepIdx reps ≠ [] := by
  obtain ⟨a, ha, hmax⟩ :=
    exists_max_measure (fun r => (nonEmptyCols r.fields).length) reps h
  obtain ⟨i, hi, hget⟩ := List.mem_iff_getElem.mp ha
  have hgetq : reps[i]? = some a := by
    rw [List.getElem?_eq_getElem hi, hget]
  have hP : isSubsetOfAny reps i a = false := by
    cases hq : isSubsetOfAny reps i a
    · rfl
    · exfalso
      obtain ⟨j, b, hgetb, hne, hdom⟩ :=
        (isSubsetOfAny_eq_true_iff reps i a).mp hq
      have hb : b ∈ reps := mem_of_getElem_some hgetb
      have hle := hmax b hb
      have hlt := domBool_length_lt hdom
      simp only at hle
      omega
  intro hnil
  have hmem : i ∈ keepIdx reps := (mem_keepIdx_iff reps i).mpr ⟨a, hgetq, hP⟩
  rw [hnil] at hmem
  simp at hmem

theorem foldl_max_init_le : ∀ (l : List Nat) (a : Nat), a ≤ l.foldl max a := by
  intro l
  induction l with
  | nil => intro a; exact Nat.le_refl _
  | cons b t ih =>
    intro a
    exact Nat.le_trans (Nat.le_max_left a b) (ih (max a b))

theorem le_foldl_max {l : List Nat} {x : Nat} (hx : x ∈ l) :
    ∀ a : Nat, x ≤ l.foldl max a := by
  induction l with
  | nil => simp at hx
  | cons b t ih =>
    intro a
    rcases List.mem_cons.mp hx with rfl | hx2
    · exact Nat.le_trans (Nat.le_max_right a x) (foldl_max_init_le t (max a x))
    · exact ih hx2 (max a b)

theorem foldl_max_mem : ∀ (l : List Nat) (a : Nat),
    l.foldl max a = a ∨ l.foldl max a ∈ l := by
  intro l
  induction l with
  | nil => intro a; exact Or.inl rfl
  | cons b t ih =>
    intro a
    rcases ih (max a b) with h | h
    · rcases max_choice a b with hm | hm
      · exact Or.inl (by rw [List.foldl_cons, h, hm])
      · refine Or.inr ?_
        rw [List.foldl_cons, h, hm]
        exact List.mem_cons_self _ _
    · exact Or.inr (List.mem_cons_of_mem _ h)

theorem foldl_max_eq_of_mem {l : List Nat} {m : Nat} (hm : m ∈ l)
    (hle : ∀ x ∈ l, x ≤ m) : l.foldl max 0 = m := by
  have h1 : m ≤ l.foldl max 0 := le_foldl_max hm 0
  have h2 : l.foldl max 0 ≤ m := by
    rcases foldl_max_mem l 0 with h | h
    · omega
    · exact hle _ h
  omega

/-- Claim C10: for every non-empty list of representative rows the
domination filter keeps at least one index — a representative with
maximal non-empty field count is never dominated, since a dominator must
have strictly more non-empty fields — so the keep-first fallback branch
(`keep_indices == []`) of `compress_df_polars` is unreachable. -/
theorem claim_c10_fallback_unreachable (reps : List Row) (h : reps ≠ []) :
    keepIdx reps ≠ [] ∧
    ∀ i a, reps[i]? = some a →
      ((nonEmptyCols a.fields).length =
        ((reps.map (fun r => (nonEmptyCols r.fields).length)).foldl max 0) →
      isSubsetOfAny reps i a = false) := by
  refine ⟨keepIdx_ne_nil reps h, ?_⟩
  intro i a hget hmaxlen
  cases hq : isSubsetOfAny reps i a
  · rfl
  · exfalso
    obtain ⟨j, b, hgetb, hne, hdom⟩ :=
      (isSubsetOfAny_eq_true_iff reps i a).mp hq
    have hb : b ∈ reps := mem_of_getElem_some hgetb
    have hlt := domBool_length_lt hdom
    have hble : (nonEmptyCols b.fields).length ≤
        (reps.map (fun r => (nonEmptyCols r.fields).length)).foldl max 0 := by
      apply le_foldl_max
      exact List.mem_map.mpr ⟨b, hb, rfl⟩
    omega

/-- Witness for C10 at the two-signature group of Scenario A. -/
theorem claim_c10_witness :
    keepIdx [⟨0, "ABC123", ⟨"", "", "", "", "", "N123", ""⟩⟩,
             ⟨1, "ABC123", ⟨"", "", "", "", "", "N123", "B738"⟩⟩] ≠ [] :=
  (claim_c10_fallback_unreachable _ (by simp)).1

theorem columns_nodup : COLUMNS.Nodup := by decide

theorem nonEmptyCols_nodup (f : Fields) : (nonEmptyCols f).Nodup :=
  columns_nodup.filter _

theorem nodup_subset_length_lt {A B : List Col} (hA : A.Nodup) (hB : B.Nodup)
    (hsub : A ⊆ B) : A.length < B.length ↔ ¬ B ⊆ A := by
  have hA2 : A.toFinset.card = A.length := List.toFinset_card_of_nodup hA
  have hB2 : B.toFinset.card = B.length := List.toFinset_card_of_nodup hB
  constructor
  · intro hlt hBA
    have hBA2 : B.toFinset ⊆ A.toFinset := by
      intro x hx
      exact List.mem_toFinset.mpr (hBA (List.mem_toFinset.mp hx))
    have := Finset.card_le_card hBA2
    omega
  · intro hBA
    have hss : A.toFinset ⊂ B.toFinset := by
      rw [Finset.ssubset_iff_subset_ne]
      constructor
      · intro x hx
        exact List.mem_toFinset.mpr (hsub (List.mem_toFinset.mp hx))
      · intro he
        apply hBA
        intro x hx
        have hx2 : x ∈ B.toFinset := List.mem_toFinset.mpr hx
        rw [← he] at hx2
        exact List.mem_toFinset.mp hx2
    have := Finset.card_lt_card hss
    omega

theorem nonEmptyCols_subset_of_cond {a b : Fields}
    (h : ∀ c ∈ COLUMNS, a.get c ≠ "" → b.get c = a.get c) :
    nonEmptyCols a ⊆ nonEmptyCols b := by
  intro c hc
  unfold nonEmptyCols at hc ⊢
  rw [List.mem_filter] at hc ⊢
  obtain ⟨hcc, hne⟩ := hc
  simp only [decide_eq_true_eq] at hne
  refine ⟨hcc, ?_⟩
  simp only [decide_eq_true_eq]
  rw [h c hcc hne]
  exact hne

theorem domBool_iff (a b : Fields) :
    domBool a b = true ↔
      ((∀ c ∈ COLUMNS, a.get c ≠ "" → b.get c = a.get c) ∧
        (nonEmptyCols a).length < (nonEmptyCols b).length) := by
  unfold domBool
  rw [Bool.and_eq_true, List.all_eq_true]
  constructor
  · rintro ⟨h1, h2⟩
    refine ⟨?_, by simpa using h2⟩
    intro c hc hne
    have h3 := h1 c hc
    simp only [Bool.or_eq_true, decide_eq_true_eq] at h3
    rcases h3 with h3 | h3
    · exact absurd h3 hne
    · exact h3
  · rintro ⟨h1, h2⟩
    refine ⟨?_, by simpa using h2⟩
    intro c hc
    simp only [Bool.or_eq_true, decide_eq_true_eq]
    by_cases hne : a.get c = ""
    · exact Or.inl hne
    · exact Or.inr (h1 c hc hne)

theorem domBool_iff_dominatesSpec (a b : Row) :
    domBool a.fields b.fields = true ↔ DominatesSpec a b := by
  rw [domBool_iff]
  unfold DominatesSpec
  constructor
  · rintro ⟨h1, h2⟩
    have hsub := nonEmptyCols_subset_of_cond h1
    exact ⟨h1, hsub,
      (nodup_subset_length_lt (nonEmptyCols_nodup _) (nonEmptyCols_nodup _)
        hsub).mp h2⟩
  · rintro ⟨h1, hsub, hnsub⟩
    exact ⟨h1,
      (nodup_subset_length_lt (nonEmptyCols_nodup _) (nonEmptyCols_nodup _)
        hsub).mpr hnsub⟩

/-- Claim C1: for an entity with at least two distinct signatures, the
domination filter of `compress_df_polars` discards the representative at
index `i` exactly when some representative at another index dominates it
in the sense of the specification (every present non-empty (field, value)
pair of the discarded row appears identically in the dominator, whose set
of non-empty identity fields is strictly larger); in particular, on the
two-row Scenario A input the aggregation returns row2. -/
theorem claim_c1_domination_filter :
    (∀ (rows : List Row) (i : Nat) (a : Row),
      2 ≤ (repsOf rows).length → (repsOf rows)[i]? = some a →
      (i ∉ keepIdx (repsOf rows) ↔
        ∃ j b, (repsOf rows)[j]? = some b ∧ j ≠ i ∧ DominatesSpec a b)) ∧
    compress_df
      [⟨0, "ABC123", ⟨"", "", "", "", "", "N123", ""⟩⟩,
       ⟨1, "ABC123", ⟨"", "", "", "", "", "N123", "B738"⟩⟩] "ABC123" =
      some ⟨1, "ABC123", ⟨"", "", "", "", "", "N123", "B738"⟩⟩ := by
  constructor
  · intro rows i a _ hget
    constructor
    · intro hni
      have hne : ¬ (isSubsetOfAny (repsOf rows) i a = false) := by
        intro hfalse
        exact hni ((mem_keepIdx_iff _ _).mpr ⟨a, hget, hfalse⟩)
      have htrue : isSubsetOfAny (repsOf rows) i a = true := by
        cases hq : isSubsetOfAny (repsOf rows) i a
        · exact absurd hq hne
        · rfl
      obtain ⟨j, b, hgetb, hjne, hdom⟩ :=
        (isSubsetOfAny_eq_true_iff _ _ _).mp htrue
      exact ⟨j, b, hgetb, hjne, (domBool_iff_dominatesSpec a b).mp hdom⟩
    · rintro ⟨j, b, hgetb, hjne, hdom⟩ hmem
      obtain ⟨a2, hget2, hfalse⟩ := (mem_keepIdx_iff _ _).mp hmem
      rw [hget] at hget2
      injection hget2 with ha2
      subst ha2
      have htrue : isSubsetOfAny (repsOf rows) i a = true :=
        (isSubsetOfAny_eq_true_iff _ _ _).mpr
          ⟨j, b, hgetb, hjne, (domBool_iff_dominatesSpec a b).mpr hdom⟩
      rw [htrue] at hfalse
      exact Bool.noConfusion hfalse
  · rfl

/-- Witness for C1: on the Scenario A group, the sparse representative at
index 0 is discarded because the fuller representative at index 1
dominates it. -/
theorem claim_c1_witness :
    (0 ∉ keepIdx (repsOf
      [⟨0, "ABC123", ⟨"", "", "", "", "", "N123", ""⟩⟩,
       ⟨1, "ABC123", ⟨"", "", "", "", "", "N123", "B738"⟩⟩]) ↔
      ∃ j b, (repsOf
        [⟨0, "ABC123", ⟨"", "", "", "", "", "N123", ""⟩⟩,
         ⟨1, "ABC123", ⟨"", "", "", "", "", "N123", "B738"⟩⟩])[j]? = some b ∧
        j ≠ 0 ∧
        DominatesSpec ⟨0, "ABC123", ⟨"", "", "", "", "", "N123", ""⟩⟩ b) :=
  claim_c1_domination_filter.1 _ 0 _ (by decide) rfl

theorem keptReps_ne_nil (reps : List Row) (h : reps ≠ []) :
    keptReps reps ≠ [] := by
  have hkeepne : keepIdx reps ≠ [] := keepIdx_ne_nil reps h
  obtain ⟨i0, rest, hk⟩ : ∃ i0 rest, keepIdx reps = i0 :: rest := by
    cases hkl : keepIdx reps with
    | nil => exact absurd hkl hkeepne
    | cons x xs => exact ⟨x, xs, rfl⟩
  have hi0 : i0 ∈ keepIdx reps := by
    rw [hk]
    exact List.mem_cons_self _ _
  obtain ⟨a0, hget0, -⟩ := (mem_keepIdx_iff _ _).mp hi0
  have ha0 : a0 ∈ reps := mem_of_getElem_some hget0
  have hmem : a0 ∈ keptReps reps := by
    unfold keptReps
    refine List.mem_filter.mpr ⟨ha0, ?_⟩
    simp only [decide_eq_true_eq]
    unfold remainingSigs
    rw [if_neg hkeepne, List.mem_filterMap]
    exact ⟨i0, hi0, by rw [hget0]; rfl⟩
  intro hnil
  rw [hnil] at hmem
  simp at hmem

/-- Claim C4: for every entity whose representatives, after the
domination filter, still number more than one, `compress_df_polars`
selects the surviving representative whose signature occurrence count
over its input is highest, and among survivors sharing that highest
count the first in the stable survivor order is chosen: if `r` is a
survivor of maximal count and every survivor before it has strictly
smaller count, the output is `r` relabelled with the entity id. -/
theorem claim_c4_frequency_tiebreak (rows : List Row) (icao : String)
    (pre post : List Row) (r : Row)
    (h2 : 1 < (keptReps (repsOf rows)).length)
    (hsplit : keptReps (repsOf rows) = pre ++ r :: post)
    (hmax : ∀ s ∈ keptReps (repsOf rows),
      sigCount rows (sigOf s.fields) ≤ sigCount rows (sigOf r.fields))
    (hpre : ∀ s ∈ pre,
      sigCount rows (sigOf s.fields) < sigCount rows (sigOf r.fields)) :
    compress_df rows icao = some { r with icao := icao } := by
  have hsub : (keptReps (repsOf rows)).length ≤ (repsOf rows).length :=
    List.length_filter_le _ _
  have hlen : ¬ (repsOf rows).length = 1 := by omega
  have hrmem : r ∈ keptReps (repsOf rows) := by
    rw [hsplit]
    exact List.mem_append_right _ (List.mem_cons_self _ _)
  have hfold : ((keptReps (repsOf rows)).map
      (fun x => sigCount rows (sigOf x.fields))).foldl max 0 =
      sigCount rows (sigOf r.fields) := by
    apply foldl_max_eq_of_mem
    · exact List.mem_map.mpr ⟨r, hrmem, rfl⟩
    · intro x hx
      obtain ⟨q, hq, rfl⟩ := List.mem_map.mp hx
      exact hmax q hq
  have hhead : ((keptReps (repsOf rows)).filter
      (fun x => sigCount rows (sigOf x.fields) =
        sigCount rows (sigOf r.fields))).head? = some r := by
    rw [hsplit, List.filter_append]
    have hprenil : pre.filter
        (fun x => sigCount rows (sigOf x.fields) =
          sigCount rows (sigOf r.fields)) = [] := by
      rw [List.filter_eq_nil_iff]
      intro q hq
      simp only [decide_eq_true_eq]
      have := hpre q hq
      omega
    rw [hprenil, List.filter_cons]
    simp
  unfold compress_df
  simp only [if_neg hlen, if_pos h2, hfold, hhead, Option.map_some']

/-- Witness for C4: four distinct signatures — the sparse one occurs six
times but is dominated and discarded; the three survivors (none
dominating another) have counts 5, 3 and 2, and the count-5 survivor is
returned. -/
theorem claim_c4_witness :
    compress_df
      [⟨0, "ABC123", ⟨"", "", "", "", "", "N1", ""⟩⟩,
       ⟨1, "ABC123", ⟨"", "", "", "", "", "N1", ""⟩⟩,
       ⟨2, "ABC123", ⟨"", "", "", "", "", "N1", ""⟩⟩,
       ⟨3, "ABC123", ⟨"", "", "", "", "", "N1", ""⟩⟩,
       ⟨4, "ABC123", ⟨"", "", "", "", "", "N1", ""⟩⟩,
       ⟨5, "ABC123", ⟨"", "", "", "", "", "N1", ""⟩⟩,
       ⟨10, "ABC123", ⟨"", "", "", "", "", "N1", "T1"⟩⟩,
       ⟨11, "ABC123", ⟨"", "", "", "", "", "N1", "T1"⟩⟩,
       ⟨12, "ABC123", ⟨"", "", "", "", "", "N1", "T1"⟩⟩,
       ⟨13, "ABC123", ⟨"", "", "", "", "", "N1", "T1"⟩⟩,
       ⟨14, "ABC123", ⟨"", "", "", "", "", "N1", "T1"⟩⟩,
       ⟨20, "ABC123", ⟨"", "", "", "", "", "N2", "T1"⟩⟩,
       ⟨21, "ABC123", ⟨"", "", "", "", "", "N2", "T1"⟩⟩,
       ⟨22, "ABC123", ⟨"", "", "", "", "", "N2", "T1"⟩⟩,
       ⟨30, "ABC123", ⟨"", "", "", "", "", "N3", "T1"⟩⟩,
       ⟨31, "ABC123", ⟨"", "", "", "", "", "N3", "T1"⟩⟩] "ABC123" =
      some ⟨10, "ABC123", ⟨"", "", "", "", "", "N1", "T1"⟩⟩ :=
  claim_c4_frequency_tiebreak _ "ABC123" []
    [⟨20, "ABC123", ⟨"", "", "", "", "", "N2", "T1"⟩⟩,
     ⟨30, "ABC123", ⟨"", "", "", "", "", "N3", "T1"⟩⟩]
    ⟨10, "ABC123", ⟨"", "", "", "", "", "N1", "T1"⟩⟩
    (by decide) (by decide) (by decide) (by decide)

theorem filter_cons_pos {α : Type} {p : α → Bool} {a : α} (h : p a = true)
    (l : List α) : (a :: l).filter p = a :: l.filter p := by
  simp [List.filter_cons, h]

theorem filter_cons_neg {α : Type} {p : α → Bool} {a : α} (h : p a = false)
    (l : List α) : (a :: l).filter p = l.filter p := by
  simp [List.filter_cons, h]

theorem dedupFirstBy_cons_pos {α K : Type} [DecidableEq K] (key : α → K)
    (seen : List K) (a : α) (t : List α) (h : key a ∈ seen) :
    dedupFirstBy key seen (a :: t) = dedupFirstBy key seen t := by
  simp [dedupFirstBy, h]

theorem dedupFirstBy_cons_neg {α K : Type} [DecidableEq K] (key : α → K)
    (seen : List K) (a : α) (t : List α) (h : key a ∉ seen) :
    dedupFirstBy key seen (a :: t) = a :: dedupFirstBy key (key a :: seen) t := by
  simp [dedupFirstBy, h]

theorem filter_dedupFirstBy_icao (i : String) :
    ∀ (l : List Row) (seen1 seen2 : List (String × Fields)),
      (∀ k : String × Fields, k.1 = i → (k ∈ seen1 ↔ k ∈ seen2)) →
      (dedupFirstBy (fun r => (r.icao, r.fields)) seen1 l).filter
        (fun r => r.icao = i) =
      dedupFirstBy (fun r => (r.icao, r.fields)) seen2
        (l.filter (fun r => r.icao = i)) := by
  intro l
  induction l with
  | nil => intro seen1 seen2 _; simp [dedupFirstBy]
  | cons a t ih =>
    intro seen1 seen2 hseen
    by_cases hai : a.icao = i
    · rw [filter_cons_pos (by simp [hai]) t]
      by_cases hin : (a.icao, a.fields) ∈ seen1
      · have hin2 : (a.icao, a.fields) ∈ seen2 := (hseen _ hai).mp hin
        rw [dedupFirstBy_cons_pos (fun r : Row => (r.icao, r.fields)) seen1 a t hin,
          dedupFirstBy_cons_pos (fun r : Row => (r.icao, r.fields)) seen2 a _ hin2]
        exact ih seen1 seen2 hseen
      · have hin2 : (a.icao, a.fields) ∉ seen2 := fun h =>
          hin ((hseen _ hai).mpr h)
        rw [dedupFirstBy_cons_neg (fun r : Row => (r.icao, r.fields)) seen1 a t hin,
          dedupFirstBy_cons_neg (fun r : Row => (r.icao, r.fields)) seen2 a _ hin2,
          filter_cons_pos (by simp [hai])]
        congr 1
        refine ih _ _ ?_
        intro k hk
        simp only [List.mem_cons]
        rw [hseen k hk]
    · rw [filter_cons_neg (by simp [hai]) t]
      by_cases hin : (a.icao, a.fields) ∈ seen1
      · rw [dedupFirstBy_cons_pos (fun r : Row => (r.icao, r.fields)) seen1 a t hin]
        exact ih seen1 seen2 hseen
      · rw [dedupFirstBy_cons_neg (fun r : Row => (r.icao, r.fields)) seen1 a t hin,
          filter_cons_neg (by simp [hai])]
        refine ih _ _ ?_
        intro k hk
        rw [List.mem_cons, hseen k hk]
        constructor
        · rintro (h | h)
          · exfalso
            apply hai
            have h1 := congrArg Prod.fst h
            simp only at h1
            exact h1.symm.trans hk
          · exact h
        · exact Or.inr

theorem groupRows_prepRows (l : List Row) (i : String) :
    groupRows (prepRows l) i = prepRows (l.filter (fun r => r.icao = i)) := by
  unfold groupRows prepRows
  rw [filter_dedupFirstBy_icao i (sortRows l) [] [] (by intro k _; rfl),
    filter_sortRows_icao]

theorem mem_firstOccur {s : String} {l : List String} :
    s ∈ firstOccur l ↔ s ∈ l := by
  constructor
  · exact mem_of_mem_dedupFirstBy _ _ _ _
  · intro h
    obtain ⟨r, hr, hk⟩ := exists_mem_dedupFirstBy (fun x : String => x) [] l s h
      (by simp)
    exact (show r = s from hk) ▸ hr

theorem firstOccur_nodup (l : List String) : (firstOccur l).Nodup :=
  pairwise_key_dedupFirstBy (fun s : String => s) [] l

theorem mem_keysOf {i : String} {l : List Row} :
    i ∈ keysOf l ↔ ∃ r ∈ l, r.icao = i := by
  unfold keysOf prepRows
  rw [mem_firstOccur, List.mem_map]
  constructor
  · rintro ⟨r, hr, rfl⟩
    exact ⟨r, (sortRows_perm l).subset (mem_of_mem_dedupFirstBy _ _ _ _ hr),
      rfl⟩
  · rintro ⟨r, hr, rfl⟩
    have hr2 : r ∈ sortRows l := (sortRows_perm l).mem_iff.mpr hr
    obtain ⟨q, hq, hk⟩ := exists_mem_dedupFirstBy
      (fun r : Row => (r.icao, r.fields)) [] (sortRows l) r hr2 (by simp)
    refine ⟨q, hq, ?_⟩
    simpa using congrArg Prod.fst hk

theorem keysOf_nodup (l : List Row) : (keysOf l).Nodup :=
  firstOccur_nodup _

theorem keysOf_append_perm (p1 p2 : List Row)
    (hdisj : ∀ r ∈ p1, ∀ s ∈ p2, r.icao ≠ s.icao) :
    List.Perm (keysOf (p1 ++ p2)) (keysOf p1 ++ keysOf p2) := by
  have hdisjk : List.Disjoint (keysOf p1) (keysOf p2) := by
    intro i h1 h2
    obtain ⟨r, hr, hri⟩ := mem_keysOf.mp h1
    obtain ⟨s, hs, hsi⟩ := mem_keysOf.mp h2
    exact hdisj r hr s hs (hri.trans hsi.symm)
  have h12 : (keysOf p1 ++ keysOf p2).Nodup :=
    (keysOf_nodup p1).append (keysOf_nodup p2) hdisjk
  refine (List.perm_ext_iff_of_nodup (keysOf_nodup _) h12).mpr ?_
  intro i
  rw [List.mem_append, mem_keysOf, mem_keysOf, mem_keysOf]
  constructor
  · rintro ⟨r, hr, rfl⟩
    rcases List.mem_append.mp hr with h | h
    · exact Or.inl ⟨r, h, rfl⟩
    · exact Or.inr ⟨r, h, rfl⟩
  · rintro (⟨r, hr, rfl⟩ | ⟨r, hr, rfl⟩)
    · exact ⟨r, List.mem_append_left _ hr, rfl⟩
    · exact ⟨r, List.mem_append_right _ hr, rfl⟩

theorem sigCount_pos {rows : List Row} {r : Row} (hr : r ∈ rows) :
    0 < sigCount rows (sigOf r.fields) := by
  unfold sigCount
  have hmem : r ∈ rows.filter (fun x => sigOf x.fields = sigOf r.fields) :=
    List.mem_filter.mpr ⟨hr, by simp⟩
  exact List.length_pos_of_mem hmem

theorem mem_option_toList {α : Type} {o : Option α} {x : α}
    (h : x ∈ o.toList) : o = some x := by
  cases o with
  | none => simp at h
  | some y =>
    simp only [Option.toList_some, List.mem_singleton] at h
    rw [h]

theorem compress_df_icao (rows : List Row) (icao : String) (r : Row)
    (h : compress_df rows icao = some r) : r.icao = icao := by
  simp only [compress_df] at h
  by_cases hlen : (repsOf rows).length = 1
  · rw [if_pos hlen] at h
    obtain ⟨x, hx, hr⟩ := Option.map_eq_some'.mp h
    rw [← hr]
  · rw [if_neg hlen] at h
    obtain ⟨x, hx, hr⟩ := Option.map_eq_some'.mp h
    rw [← hr]

theorem compress_df_some (rows : List Row) (icao : String) (h : rows ≠ []) :
    ∃ r, compress_df rows icao = some r := by
  cases hc : compress_df rows icao with
  | some r => exact ⟨r, rfl⟩
  | none =>
    exfalso
    have hreps : repsOf rows ≠ [] := dedupFirstBy_nil_ne_nil _ _ h
    have hkept : keptReps (repsOf rows) ≠ [] := keptReps_ne_nil _ hreps
    simp only [compress_df] at hc
    by_cases hlen : (repsOf rows).length = 1
    · rw [if_pos hlen, Option.map_eq_none'] at hc
      rw [List.head?_eq_none_iff] at hc
      exact hreps hc
    · rw [if_neg hlen, Option.map_eq_none'] at hc
      by_cases hkl : 1 < (keptReps (repsOf rows)).length
      · rw [if_pos hkl, List.head?_eq_none_iff, List.filter_eq_nil_iff] at hc
        obtain ⟨m, hm, hmx⟩ := exists_max_measure
          (fun r => sigCount rows (sigOf r.fields)) (keptReps (repsOf rows))
          hkept
        refine hc m hm ?_
        simp only [decide_eq_true_eq]
        symm
        apply foldl_max_eq_of_mem
        · exact List.mem_map.mpr ⟨m, hm, rfl⟩
        · intro x hx
          obtain ⟨q, hq, rfl⟩ := List.mem_map.mp hx
          exact hmx q hq
      · rw [if_neg hkl, List.head?_eq_none_iff] at hc
        exact hkept hc

theorem groupRows_prepRows_ne_nil {l : List Row} {i : String}
    (h : i ∈ keysOf l) : groupRows (prepRows l) i ≠ [] := by
  unfold keysOf at h
  rw [mem_firstOccur, List.mem_map] at h
  obtain ⟨r, hr, rfl⟩ := h
  intro hnil
  have hmem : r ∈ groupRows (prepRows l) r.icao :=
    List.mem_filter.mpr ⟨hr, by simp⟩
  rw [hnil] at hmem
  simp at hmem

theorem pairwise_icao_flatMap (keys : List String) (F : String → List Row)
    (hnd : keys.Nodup) (hicao : ∀ i, ∀ r ∈ F i, r.icao = i)
    (hlen : ∀ i, (F i).length ≤ 1) :
    (keys.flatMap F).Pairwise (fun a b => a.icao ≠ b.icao) := by
  induction keys with
  | nil => simp
  | cons k ks ih =>
    rw [List.flatMap_cons, List.pairwise_append]
    obtain ⟨hknotin, hndtl⟩ := List.nodup_cons.mp hnd
    refine ⟨?_, ih hndtl, ?_⟩
    · cases hfk : F k with
      | nil => simp
      | cons x xs =>
        have hl := hlen k
        rw [hfk, List.length_cons] at hl
        have hxs : xs = [] := List.length_eq_zero.mp (by omega)
        rw [hxs]
        simp
    · intro a ha b hb
      have hai : a.icao = k := hicao k a ha
      obtain ⟨k2, hk2, hbk2⟩ := List.mem_flatMap.mp hb
      have hbi : b.icao = k2 := hicao k2 b hbk2
      rw [hai, hbi]
      intro he
      exact hknotin (he ▸ hk2)

theorem compress_multi_eq (l : List Row) :
    compress_multi l = (keysOf l).flatMap
      (fun i => (compress_df (groupRows (prepRows l) i) i).toList) := by
  by_cases h : l = []
  · subst h
    rfl
  · unfold compress_multi
    rw [if_neg h]

/-- Claim C2: for raw observations split into two parts with disjoint
entity-id sets, concatenating the per-part outputs of
`compress_multi_icao_df` equals, up to row order, running it once on the
combined input: the combined run's output is a permutation of the
concatenated per-part outputs, an entity id appears in the combined
output exactly when some input row carries it (none lost), and no entity
id appears in two output rows (none duplicated). -/
theorem claim_c2_partition_compositional (p1 p2 : List Row)
    (hdisj : ∀ r ∈ p1, ∀ s ∈ p2, r.icao ≠ s.icao) :
    List.Perm (compress_multi (p1 ++ p2))
      (compress_multi p1 ++ compress_multi p2) ∧
    (∀ i : String, (∃ r ∈ compress_multi (p1 ++ p2), r.icao = i) ↔
      ∃ r ∈ p1 ++ p2, r.icao = i) ∧
    (compress_multi (p1 ++ p2)).Pairwise (fun a b => a.icao ≠ b.icao) := by
  have hgroup1 : ∀ i ∈ keysOf p1,
      groupRows (prepRows (p1 ++ p2)) i = groupRows (prepRows p1) i := by
    intro i hi
    obtain ⟨r, hr, hri⟩ := mem_keysOf.mp hi
    rw [groupRows_prepRows, groupRows_prepRows]
    have h2 : p2.filter (fun s => s.icao = i) = [] := by
      rw [List.filter_eq_nil_iff]
      intro s hs
      simp only [decide_eq_true_eq]
      intro hsi
      exact hdisj r hr s hs (hri.trans hsi.symm)
    rw [List.filter_append, h2, List.append_nil]
  have hgroup2 : ∀ i ∈ keysOf p2,
      groupRows (prepRows (p1 ++ p2)) i = groupRows (prepRows p2) i := by
    intro i hi
    obtain ⟨s, hs, hsi⟩ := mem_keysOf.mp hi
    rw [groupRows_prepRows, groupRows_prepRows]
    have h1 : p1.filter (fun r => r.icao = i) = [] := by
      rw [List.filter_eq_nil_iff]
      intro r hr
      simp only [decide_eq_true_eq]
      intro hri
      exact hdisj r hr s hs (hri.trans hsi.symm)
    rw [List.filter_append, h1, List.nil_append]
  have hflat1 : (keysOf p1).flatMap
      (fun i => (compress_df (groupRows (prepRows (p1 ++ p2)) i) i).toList) =
      (keysOf p1).flatMap
      (fun i => (compress_df (groupRows (prepRows p1) i) i).toList) := by
    rw [List.flatMap_def, List.flatMap_def]
    congr 1
    apply List.map_congr_left
    intro i hi
    rw [hgroup1 i hi]
  have hflat2 : (keysOf p2).flatMap
      (fun i => (compress_df (groupRows (prepRows (p1 ++ p2)) i) i).toList) =
      (keysOf p2).flatMap
      (fun i => (compress_df (groupRows (prepRows p2) i) i).toList) := by
    rw [List.flatMap_def, List.flatMap_def]
    congr 1
    apply List.map_congr_left
    intro i hi
    rw [hgroup2 i hi]
  refine ⟨?_, ?_, ?_⟩
  · rw [compress_multi_eq (p1 ++ p2), compress_multi_eq p1,
      compress_multi_eq p2]
    have hp := (keysOf_append_perm p1 p2 hdisj).flatMap_right
      (fun i => (compress_df (groupRows (prepRows (p1 ++ p2)) i) i).toList)
    refine hp.trans ?_
    have he : (keysOf p1 ++ keysOf p2).flatMap
        (fun i => (compress_df (groupRows (prepRows (p1 ++ p2)) i) i).toList) =
        (keysOf p1).flatMap
          (fun i => (compress_df (groupRows (prepRows p1) i) i).toList) ++
        (keysOf p2).flatMap
          (fun i => (compress_df (groupRows (prepRows p2) i) i).toList) := by
      rw [List.flatMap_append, hflat1, hflat2]
    rw [he]
  · intro i
    rw [compress_multi_eq (p1 ++ p2)]
    constructor
    · rintro ⟨r, hr, rfl⟩
      obtain ⟨k, hk, hrk⟩ := List.mem_flatMap.mp hr
      have hck := mem_option_toList hrk
      have hic : r.icao = k := compress_df_icao _ _ _ hck
      rw [hic]
      exact mem_keysOf.mp hk
    · intro hex
      have hk : i ∈ keysOf (p1 ++ p2) := mem_keysOf.mpr hex
      obtain ⟨r, hr⟩ := compress_df_some (groupRows (prepRows (p1 ++ p2)) i) i
        (groupRows_prepRows_ne_nil hk)
      refine ⟨r, ?_, compress_df_icao _ _ _ hr⟩
      rw [List.mem_flatMap]
      refine ⟨i, hk, ?_⟩
      rw [hr]
      simp
  · rw [compress_multi_eq (p1 ++ p2)]
    apply pairwise_icao_flatMap
    · exact keysOf_nodup _
    · intro k r hr
      exact compress_df_icao _ _ _ (mem_option_toList hr)
    · intro k
      cases compress_df (groupRows (prepRows (p1 ++ p2)) k) k <;> simp

/-- Witness for C2 on two one-row parts with disjoint entity ids. -/
theorem claim_c2_witness :
    List.Perm
      (compress_multi
        ([(⟨0, "a0", ⟨"", "", "", "", "", "N1", ""⟩⟩ : Row)] ++
         [⟨1, "b1", ⟨"", "", "", "", "", "N2", "B738"⟩⟩]))
      (compress_multi [(⟨0, "a0", ⟨"", "", "", "", "", "N1", ""⟩⟩ : Row)] ++
       compress_multi [(⟨1, "b1", ⟨"", "", "", "", "", "N2", "B738"⟩⟩ : Row)]) :=
  (claim_c2_partition_compositional _ _ (by decide)).1

end OpenAirframes
